import Mathlib

/-!
Verification development for the photo-cropper detection pipeline
(src/main.rs).  The geometric and list-processing core of the program is
embedded shallowly: `Point2f` coordinates become exact rationals, the
OpenCV `Mat`s that only matter through their size become `ℤ × ℤ`, and the
Rust iterator combinators (`min_by`, `max_by`, `sort_by`, the greedy
overlap filter) become structurally recursive Lean functions with the
same tie-breaking behaviour (`min_by` keeps the first minimum, `max_by`
keeps the last maximum, `sort_by` is a stable sort).
-/

/-- A `Point2f` from main.rs, with exact rational coordinates. -/
abbrev Point : Type := ℚ × ℚ

/-- The corner functional `x + y` used by `order_points` (main.rs:294,298). -/
def psum (p : Point) : ℚ := p.1 + p.2

/-- The corner functional `x - y` used by `order_points` (main.rs:304,308). -/
def pdiff (p : Point) : ℚ := p.1 - p.2

/-- The `[Point2f; 4]` array that `RotatedRect::points` fills and
`order_points` consumes (main.rs:249-251, 288). -/
structure Quad where
  p0 : Point
  p1 : Point
  p2 : Point
  p3 : Point
deriving DecidableEq

def Quad.toList (q : Quad) : List Point := [q.p0, q.p1, q.p2, q.p3]

/-- One fold step of Rust `Iterator::min_by`: the accumulator is replaced
only on a strictly smaller key, so the first minimum wins. -/
def min2 (f : Point → ℚ) (a x : Point) : Point := if f x < f a then x else a

/-- One fold step of Rust `Iterator::max_by`: the accumulator is replaced
on a greater-or-equal key, so the last maximum wins. -/
def max2 (f : Point → ℚ) (a x : Point) : Point := if f a ≤ f x then x else a

/-- Rust `points.iter().min_by(...)` over the four array entries. -/
def minBy4 (f : Point → ℚ) (q : Quad) : Point :=
  min2 f (min2 f (min2 f q.p0 q.p1) q.p2) q.p3

/-- Rust `points.iter().max_by(...)` over the four array entries. -/
def maxBy4 (f : Point → ℚ) (q : Quad) : Point :=
  max2 f (max2 f (max2 f q.p0 q.p1) q.p2) q.p3

/-- `order_points` (main.rs:288-312): `ordered[0]` minimises `x + y`,
`ordered[2]` maximises `x + y`, `ordered[1]` minimises `x - y`,
`ordered[3]` maximises `x - y`. -/
def order_points (q : Quad) : Quad :=
  ⟨minBy4 psum q, minBy4 pdiff q, maxBy4 psum q, maxBy4 pdiff q⟩

/-- Corner of the rectangle with centre `c` and half-edge vectors `u`, `v`,
with sign parameters `e1, e2 ∈ {1, -1}`. -/
def corner (c u v : Point) (e1 e2 : ℚ) : Point :=
  (c.1 + e1 * u.1 + e2 * v.1, c.2 + e1 * u.2 + e2 * v.2)

/-- The four corners of the rectangle `(c, u, v)` in a fixed reference
order. -/
def cornersList (c u v : Point) : List Point :=
  [corner c u v 1 1, corner c u v 1 (-1), corner c u v (-1) (-1),
   corner c u v (-1) 1]

/-- Two corners of the rectangle `(c, u, v)` are adjacent (joined by an
edge, never a diagonal) iff their difference is `±2u` or `±2v`. -/
def adjacentStep (u v p q : Point) : Prop :=
  (q.1 - p.1 = 2 * u.1 ∧ q.2 - p.2 = 2 * u.2) ∨
  (q.1 - p.1 = -2 * u.1 ∧ q.2 - p.2 = -2 * u.2) ∨
  (q.1 - p.1 = 2 * v.1 ∧ q.2 - p.2 = 2 * v.2) ∨
  (q.1 - p.1 = -2 * v.1 ∧ q.2 - p.2 = -2 * v.2)

instance (u v p q : Point) : Decidable (adjacentStep u v p q) := by
  unfold adjacentStep; infer_instance

/-- All four cyclically consecutive pairs of an ordered quad are adjacent
corners: the ordering traces a simple quadrilateral. -/
def adjacentCycle (u v : Point) (o : Quad) : Prop :=
  adjacentStep u v o.p0 o.p1 ∧ adjacentStep u v o.p1 o.p2 ∧
  adjacentStep u v o.p2 o.p3 ∧ adjacentStep u v o.p3 o.p0

instance (u v : Point) (o : Quad) : Decidable (adjacentCycle u v o) := by
  unfold adjacentCycle; infer_instance

/-- The input hypothesis of the `order_points` claim: `q` holds, in some
order, the four corners of a rectangle with centre `c`, perpendicular
half-edge vectors `u ⊥ v` and both side lengths `2|u|, 2|v| > 1`. -/
def IsRectInput (c u v : Point) (q : Quad) : Prop :=
  u.1 * v.1 + u.2 * v.2 = 0 ∧ 1 < 4 * (u.1 ^ 2 + u.2 ^ 2) ∧
  1 < 4 * (v.1 ^ 2 + v.2 ^ 2) ∧ q.toList.Perm (cornersList c u v)

instance (c u v : Point) (q : Quad) : Decidable (IsRectInput c u v q) := by
  unfold IsRectInput; infer_instance

/-- The conclusion of the `order_points` claim: the returned quad is a
permutation of the four corners and consecutive returned points are
always adjacent corners. -/
def OrderedOk (c u v : Point) (q : Quad) : Prop :=
  (order_points q).toList.Perm (cornersList c u v) ∧
  adjacentCycle u v (order_points q)

instance (c u v : Point) (q : Quad) : Decidable (OrderedOk c u v q) := by
  unfold OrderedOk; infer_instance

/-- Largest `k ≤ fuel` reachable from `k0` upwards with `k * k ≤ m`
(auxiliary for the integer square root; structurally recursive so that it
evaluates inside the kernel). -/
def isqrtGo (m : ℕ) : ℕ → ℕ → ℕ
  | 0, k => k
  | fuel + 1, k => if (k + 1) * (k + 1) ≤ m then isqrtGo m fuel (k + 1) else k

/-- `⌊√m⌋`: the largest `k` with `k * k ≤ m`. -/
def isqrt (m : ℕ) : ℕ := isqrtGo m m 0

/-- Round-half-away-from-zero of `√x` for a nonnegative rational `x`,
as computed by `distance(..).round()` on nonnegative floats
(main.rs:255,259,314-316).  Uses `⌊√x + 1/2⌋ = ⌊(⌊2√x⌋ + 1) / 2⌋` and
`⌊2√(n/d)⌋ = ⌊⌊√(4 n d)⌋ / d⌋`. -/
def roundSqrt (x : ℚ) : ℕ :=
  (isqrt (4 * x.num.toNat * x.den) / x.den + 1) / 2

/-- Squared distance between two points; `distance` in main.rs:314-316 is
its square root. -/
def sqDist (a b : Point) : ℚ := (a.1 - b.1) ^ 2 + (a.2 - b.2) ^ 2

/-- The output canvas size `Size::new(max_width, max_height)` computed by
`warp_photo` (main.rs:253-262, 279).  `max` is taken before the rounding
(equivalent to the source's rounding of the `f32` max, since `√·` and
rounding are monotone), and both extents are floored at 1. -/
def warp_size (q : Quad) : ℤ × ℤ :=
  (max (roundSqrt (max (sqDist (order_points q).p0 (order_points q).p1)
                       (sqDist (order_points q).p3 (order_points q).p2)) : ℤ) 1,
   max (roundSqrt (max (sqDist (order_points q).p0 (order_points q).p3)
                       (sqDist (order_points q).p1 (order_points q).p2)) : ℤ) 1)

/-- The effective Canny threshold pair (main.rs:176-181): if the caller's
high threshold is not strictly above the low one, the high threshold is
re-derived as `max(3·low, low + 1)`. -/
def effective_canny (canny_low canny_high : ℚ) : ℚ × ℚ :=
  if canny_high ≤ canny_low then
    (canny_low, max (canny_low * 3) (canny_low + 1))
  else
    (canny_low, canny_high)

/-- The bounding box computed by `rect_bbox` (main.rs:328-336): min/max of
the x and y coordinates of the rectangle's four corner points. -/
structure Bbox where
  x1 : ℚ
  y1 : ℚ
  x2 : ℚ
  y2 : ℚ
deriving DecidableEq

/-- A `core::RotatedRect` as the pipeline consumes it: its `size` extents
(main.rs:218-219) and the four corner points that `rect.points(..)` fills
(main.rs:249-250, 329-330). -/
structure RRectM where
  width : ℚ
  height : ℚ
  pts : Quad
deriving DecidableEq

/-- `RectCandidate` (main.rs:42-45): a rotated rectangle plus the
originating contour's measured area. -/
structure RectCandidate where
  rect : RRectM
  area : ℚ
deriving DecidableEq

/-- `rect_bbox` (main.rs:328-336).  The Rust folds `f32::min`/`f32::max`
seeded with `±∞` over the four coordinates, which on finite inputs is the
plain four-way min/max in the same association order. -/
def rect_bbox (r : RRectM) : Bbox :=
  ⟨min (min (min r.pts.p0.1 r.pts.p1.1) r.pts.p2.1) r.pts.p3.1,
   min (min (min r.pts.p0.2 r.pts.p1.2) r.pts.p2.2) r.pts.p3.2,
   max (max (max r.pts.p0.1 r.pts.p1.1) r.pts.p2.1) r.pts.p3.1,
   max (max (max r.pts.p0.2 r.pts.p1.2) r.pts.p2.2) r.pts.p3.2⟩

/-- `rects_overlap` (main.rs:318-326): the clamped bbox intersection has
strictly positive width and height. -/
def rects_overlap (a b : RRectM) : Bool :=
  decide (0 < max 0 (min (rect_bbox a).x2 (rect_bbox b).x2 -
                     max (rect_bbox a).x1 (rect_bbox b).x1)) &&
  decide (0 < max 0 (min (rect_bbox a).y2 (rect_bbox b).y2 -
                     max (rect_bbox a).y1 (rect_bbox b).y1))

/-- Insert `c` into an already descending-sorted list, before the first
element whose key is not larger: the unique stable descending insertion,
matching Rust's stable `sort_by` with comparator
`|a, b| key(b).cmp(&key(a))` (main.rs:227, 244). -/
def insDesc {α β : Type} [LinearOrder β] (key : α → β) (c : α) :
    List α → List α
  | [] => [c]
  | x :: xs => if key x ≤ key c then c :: x :: xs else x :: insDesc key c xs

/-- Stable descending sort by `key`; the unique stable sort, hence the
result of Rust's stable `sort_by` with a descending comparator. -/
def sortDesc {α β : Type} [LinearOrder β] (key : α → β) :
    List α → List α
  | [] => []
  | x :: xs => insDesc key x (sortDesc key xs)

/-- The greedy overlap filter (main.rs:228-236): walk the area-sorted
candidates, keeping one only if it overlaps no already-kept candidate. -/
def filterOverlap : List RectCandidate → List RectCandidate →
    List RectCandidate
  | [], kept => kept
  | c :: rest, kept =>
    if kept.any (fun k => rects_overlap k.rect c.rect) then
      filterOverlap rest kept
    else
      filterOverlap rest (kept ++ [c])

/-- The overlap resolver (main.rs:227-236): sort by area descending, then
greedily drop overlapping candidates. -/
def resolve (l : List RectCandidate) : List RectCandidate :=
  filterOverlap (sortDesc (fun c => c.area) l) []

/-- One contour as the candidate loop sees it (main.rs:211-218): its
measured `contour_area` and its `min_area_rect`. -/
structure ContourM where
  area : ℚ
  marect : RRectM
deriving DecidableEq

/-- The candidate-extraction loop (main.rs:211-224): drop contours with
`area < min_area`, drop degenerate rectangles with either extent `≤ 1`,
keep the rest as `RectCandidate { rect, area }`. -/
def extract_candidates (contours : List ContourM) (min_area : ℚ) :
    List RectCandidate :=
  contours.filterMap fun c =>
    if c.area < min_area then none
    else if c.marect.width ≤ 1 ∨ c.marect.height ≤ 1 then none
    else some ⟨c.marect, c.area⟩

/-- `Mat::total()` of a warped output image: its element count
`width * height` (the warped canvas of main.rs:279 has exactly the
computed `Size`). -/
def sizeTotal (s : ℤ × ℤ) : ℕ := (s.1 * s.2).toNat

/-- Lines 227-245 of main.rs from the candidate list on: resolve
overlaps, warp each survivor (modelled by its output canvas size, which
determines `Mat::total()`), and sort by total pixel count descending. -/
def detect_from_cands (l : List RectCandidate) : List (ℤ × ℤ) :=
  sortDesc sizeTotal ((resolve l).map fun r => warp_size r.rect.pts)

/-- `detect_photos` (main.rs:121-246) from the contour list on: extract
candidates, resolve overlaps, warp, and sort the outputs. -/
def detect_photos_model (contours : List ContourM) (min_area : ℚ) :
    List (ℤ × ℤ) :=
  detect_from_cands (extract_candidates contours min_area)

/-- An `f64` candidate area for the NaN analysis of the sorts: `none`
models NaN, `some x` a NaN-free value. -/
structure FCandidate where
  area : Option ℚ
deriving DecidableEq

/-- `f64::partial_cmp`: defined exactly when neither operand is NaN. -/
def cmpOpt (x y : Option ℚ) : Option Ordering :=
  match x, y with
  | some a, some b => some (compare a b)
  | _, _ => none

/-- The area-sort comparator `|a, b| b.area.partial_cmp(&a.area)`
(main.rs:227) before its `unwrap`. -/
def areaCmpDesc (a b : FCandidate) : Option Ordering := cmpOpt b.area a.area

/-- The pixel-count comparator `|a, b| b.warped.total().cmp(&a.warped.total())`
(main.rs:244), a total `Ordering`-valued function on the element counts. -/
def pixelCmpDesc (a b : ℕ) : Ordering := compare b a

/-- The bounding box of a candidate rectangle has strictly positive
extent in both axes (true of every pipeline candidate, whose extents
exceed 1 by the main.rs:219 filter). -/
def bboxNondeg (r : RRectM) : Prop :=
  (rect_bbox r).x1 < (rect_bbox r).x2 ∧ (rect_bbox r).y1 < (rect_bbox r).y2

instance (r : RRectM) : Decidable (bboxNondeg r) := by
  unfold bboxNondeg; infer_instance

theorem min2_cases (f : Point → ℚ) (a x : Point) :
    min2 f a x = a ∨ min2 f a x = x := by
  unfold min2; split_ifs <;> simp

theorem min2_le_left (f : Point → ℚ) (a x : Point) :
    f (min2 f a x) ≤ f a := by
  unfold min2; split_ifs with h
  · exact le_of_lt h
  · exact le_refl _

theorem min2_le_right (f : Point → ℚ) (a x : Point) :
    f (min2 f a x) ≤ f x := by
  unfold min2; split_ifs with h
  · exact le_refl _
  · exact le_of_not_lt h

theorem max2_cases (f : Point → ℚ) (a x : Point) :
    max2 f a x = a ∨ max2 f a x = x := by
  unfold max2; split_ifs <;> simp

theorem max2_ge_left (f : Point → ℚ) (a x : Point) :
    f a ≤ f (max2 f a x) := by
  unfold max2; split_ifs with h
  · exact h
  · exact le_refl _

theorem max2_ge_right (f : Point → ℚ) (a x : Point) :
    f x ≤ f (max2 f a x) := by
  unfold max2; split_ifs with h
  · exact le_refl _
  · exact le_of_not_le h

theorem minBy4_mem (f : Point → ℚ) (q : Quad) : minBy4 f q ∈ q.toList := by
  unfold minBy4 Quad.toList
  rcases min2_cases f (min2 f (min2 f q.p0 q.p1) q.p2) q.p3 with h3 | h3 <;>
    rw [h3]
  · rcases min2_cases f (min2 f q.p0 q.p1) q.p2 with h2 | h2 <;> rw [h2]
    · rcases min2_cases f q.p0 q.p1 with h1 | h1 <;> rw [h1] <;> simp
    · simp
  · simp

theorem minBy4_le (f : Point → ℚ) (q : Quad) :
    ∀ p ∈ q.toList, f (minBy4 f q) ≤ f p := by
  have h01 := min2_le_left f (min2 f (min2 f q.p0 q.p1) q.p2) q.p3
  have h3 := min2_le_right f (min2 f (min2 f q.p0 q.p1) q.p2) q.p3
  have h2 := min2_le_right f (min2 f q.p0 q.p1) q.p2
  have h2' := min2_le_left f (min2 f q.p0 q.p1) q.p2
  have h0 := min2_le_left f q.p0 q.p1
  have h1 := min2_le_right f q.p0 q.p1
  intro p hp
  unfold Quad.toList at hp
  simp only [List.mem_cons, List.not_mem_nil, or_false] at hp
  rcases hp with rfl | rfl | rfl | rfl
  · exact le_trans (le_trans h01 h2') h0
  · exact le_trans (le_trans h01 h2') h1
  · exact le_trans h01 h2
  · exact h3

theorem maxBy4_mem (f : Point → ℚ) (q : Quad) : maxBy4 f q ∈ q.toList := by
  unfold maxBy4 Quad.toList
  rcases max2_cases f (max2 f (max2 f q.p0 q.p1) q.p2) q.p3 with h3 | h3 <;>
    rw [h3]
  · rcases max2_cases f (max2 f q.p0 q.p1) q.p2 with h2 | h2 <;> rw [h2]
    · rcases max2_cases f q.p0 q.p1 with h1 | h1 <;> rw [h1] <;> simp
    · simp
  · simp

theorem maxBy4_ge (f : Point → ℚ) (q : Quad) :
    ∀ p ∈ q.toList, f p ≤ f (maxBy4 f q) := by
  have h01 := max2_ge_left f (max2 f (max2 f q.p0 q.p1) q.p2) q.p3
  have h3 := max2_ge_right f (max2 f (max2 f q.p0 q.p1) q.p2) q.p3
  have h2 := max2_ge_right f (max2 f q.p0 q.p1) q.p2
  have h2' := max2_ge_left f (max2 f q.p0 q.p1) q.p2
  have h0 := max2_ge_left f q.p0 q.p1
  have h1 := max2_ge_right f q.p0 q.p1
  intro p hp
  unfold Quad.toList at hp
  simp only [List.mem_cons, List.not_mem_nil, or_false] at hp
  rcases hp with rfl | rfl | rfl | rfl
  · exact le_trans h0 (le_trans h2' h01)
  · exact le_trans h1 (le_trans h2' h01)
  · exact le_trans h2 h01
  · exact h3

theorem minBy4_eq_of_uniq (f : Point → ℚ) (q : Quad) (x : Point)
    (hx : x ∈ q.toList) (h : ∀ y ∈ q.toList, y ≠ x → f x < f y) :
    minBy4 f q = x := by
  by_contra hne
  exact absurd (minBy4_le f q x hx)
    (not_le.mpr (h _ (minBy4_mem f q) hne))

theorem maxBy4_eq_of_uniq (f : Point → ℚ) (q : Quad) (x : Point)
    (hx : x ∈ q.toList) (h : ∀ y ∈ q.toList, y ≠ x → f y < f x) :
    maxBy4 f q = x := by
  by_contra hne
  exact absurd (maxBy4_ge f q x hx)
    (not_le.mpr (h _ (maxBy4_mem f q) hne))

theorem psum_corner (c u v : Point) (e1 e2 : ℚ) :
    psum (corner c u v e1 e2) = psum c + e1 * psum u + e2 * psum v := by
  unfold psum corner; dsimp only; ring

theorem pdiff_corner (c u v : Point) (e1 e2 : ℚ) :
    pdiff (corner c u v e1 e2) = pdiff c + e1 * pdiff u + e2 * pdiff v := by
  unfold pdiff corner; dsimp only; ring

theorem minBy4_corner (f : Point → ℚ) (c u v : Point) (q : Quad) (fu fv : ℚ)
    (hf : ∀ e1 e2 : ℚ, f (corner c u v e1 e2) = f c + e1 * fu + e2 * fv)
    (t1 t2 : ℚ) (ht1 : t1 = 1 ∨ t1 = -1) (ht2 : t2 = 1 ∨ t2 = -1)
    (h1 : t1 * fu < 0) (h2 : t2 * fv < 0)
    (hperm : q.toList.Perm (cornersList c u v)) :
    minBy4 f q = corner c u v t1 t2 := by
  apply minBy4_eq_of_uniq
  · rw [hperm.mem_iff]
    rcases ht1 with rfl | rfl <;> rcases ht2 with rfl | rfl <;>
      simp [cornersList]
  · intro y hy hne
    have hyc : y ∈ cornersList c u v := hperm.subset hy
    simp only [cornersList, List.mem_cons, List.not_mem_nil, or_false]
      at hyc
    rcases ht1 with rfl | rfl <;> rcases ht2 with rfl | rfl <;>
      rcases hyc with rfl | rfl | rfl | rfl <;>
      first
        | exact absurd rfl hne
        | (simp only [hf]; linarith)

theorem maxBy4_corner (f : Point → ℚ) (c u v : Point) (q : Quad) (fu fv : ℚ)
    (hf : ∀ e1 e2 : ℚ, f (corner c u v e1 e2) = f c + e1 * fu + e2 * fv)
    (t1 t2 : ℚ) (ht1 : t1 = 1 ∨ t1 = -1) (ht2 : t2 = 1 ∨ t2 = -1)
    (h1 : 0 < t1 * fu) (h2 : 0 < t2 * fv)
    (hperm : q.toList.Perm (cornersList c u v)) :
    maxBy4 f q = corner c u v t1 t2 := by
  apply maxBy4_eq_of_uniq
  · rw [hperm.mem_iff]
    rcases ht1 with rfl | rfl <;> rcases ht2 with rfl | rfl <;>
      simp [cornersList]
  · intro y hy hne
    have hyc : y ∈ cornersList c u v := hperm.subset hy
    simp only [cornersList, List.mem_cons, List.not_mem_nil, or_false]
      at hyc
    rcases ht1 with rfl | rfl <;> rcases ht2 with rfl | rfl <;>
      rcases hyc with rfl | rfl | rfl | rfl <;>
      first
        | exact absurd rfl hne
        | (simp only [hf]; linarith)

theorem perm4_rot1 {α : Type} (a b c d : α) :
    [d, a, b, c].Perm [a, b, c, d] :=
  @List.perm_append_comm α [d] [a, b, c]

theorem perm4_rot2 {α : Type} (a b c d : α) :
    [c, d, a, b].Perm [a, b, c, d] :=
  @List.perm_append_comm α [c, d] [a, b]

theorem perm4_rot3 {α : Type} (a b c d : α) :
    [b, c, d, a].Perm [a, b, c, d] :=
  @List.perm_append_comm α [b, c, d] [a]

theorem perm4_rev {α : Type} (a b c d : α) :
    [d, c, b, a].Perm [a, b, c, d] := by
  simpa using List.reverse_perm [a, b, c, d]

theorem perm4_badc {α : Type} (a b c d : α) :
    [b, a, d, c].Perm [a, b, c, d] :=
  (List.Perm.swap a b [d, c]).trans
    (((List.Perm.swap c d []).cons b).cons a)

theorem perm4_adcb {α : Type} (a b c d : α) :
    [a, d, c, b].Perm [a, b, c, d] :=
  (by simpa using List.reverse_perm [b, c, d] : [d, c, b].Perm [b, c, d]).cons a

theorem perm4_cbad {α : Type} (a b c d : α) :
    [c, b, a, d].Perm [a, b, c, d] :=
  ((List.Perm.swap b c [a, d]).trans
      ((List.Perm.swap a c [d]).cons b)).trans
    (List.Perm.swap a b [c, d])

/-- C1 (amended): for every rectangle with width > 1 and height > 1 whose
corner functionals `x + y` and `x - y` have no ties — equivalently, no
edge is parallel to one of the two diagonal directions `(1, 1)`,
`(1, -1)`, i.e. the rotation angle is not 45° mod 90° — `order_points`
applied to the four corners in any input order returns a permutation of
the corners in which consecutive returned points (cyclically) are always
adjacent corners, never diagonal: the output is a simple quadrilateral.
(As stated, with ties allowed, the claim is false; see the
counterexample.) -/
theorem order_points_no_ties (c u v : Point) (q : Quad)
    (hrect : IsRectInput c u v q)
    (hs1 : psum u ≠ 0) (hs2 : psum v ≠ 0)
    (hd1 : pdiff u ≠ 0) (hd2 : pdiff v ≠ 0) :
    OrderedOk c u v q := by
  obtain ⟨hperp, hu, hv, hperm⟩ := hrect
  have hfs : ∀ e1 e2 : ℚ,
      psum (corner c u v e1 e2) = psum c + e1 * psum u + e2 * psum v :=
    psum_corner c u v
  have hfd : ∀ e1 e2 : ℚ,
      pdiff (corner c u v e1 e2) = pdiff c + e1 * pdiff u + e2 * pdiff v :=
    pdiff_corner c u v
  have hE0 : psum u * pdiff u * (psum v * pdiff v) ≤ 0 := by
    have hE : psum u * pdiff u * (psum v * pdiff v) =
        (u.1 * v.1 + u.2 * v.2) ^ 2 - (u.1 * v.2 + u.2 * v.1) ^ 2 := by
      unfold psum pdiff; ring
    rw [hE, hperp]
    nlinarith [sq_nonneg (u.1 * v.2 + u.2 * v.1)]
  rcases hs1.lt_or_lt with hs1' | hs1' <;>
    rcases hs2.lt_or_lt with hs2' | hs2' <;>
      rcases hd1.lt_or_lt with hd1' | hd1' <;>
        rcases hd2.lt_or_lt with hd2' | hd2'
  · exact absurd hE0 (not_le.mpr (mul_pos (mul_pos_of_neg_of_neg hs1' hd1') (mul_pos_of_neg_of_neg hs2' hd2')))
  · have e0 : minBy4 psum q = corner c u v 1 1 :=
      minBy4_corner psum c u v q (psum u) (psum v) hfs 1 1
        (Or.inl rfl) (Or.inl rfl) (by linarith) (by linarith) hperm
    have e1 : minBy4 pdiff q = corner c u v 1 (-1) :=
      minBy4_corner pdiff c u v q (pdiff u) (pdiff v) hfd 1 (-1)
        (Or.inl rfl) (Or.inr rfl) (by linarith) (by linarith) hperm
    have e2 : maxBy4 psum q = corner c u v (-1) (-1) :=
      maxBy4_corner psum c u v q (psum u) (psum v) hfs (-1) (-1)
        (Or.inr rfl) (Or.inr rfl) (by linarith) (by linarith) hperm
    have e3 : maxBy4 pdiff q = corner c u v (-1) 1 :=
      maxBy4_corner pdiff c u v q (pdiff u) (pdiff v) hfd (-1) 1
        (Or.inr rfl) (Or.inl rfl) (by linarith) (by linarith) hperm
    have ho : order_points q =
        ⟨corner c u v 1 1, corner c u v 1 (-1), corner c u v (-1) (-1), corner c u v (-1) 1⟩ := by
      unfold order_points; rw [e0, e1, e2, e3]
    refine ⟨?_, ?_⟩
    · rw [ho]
      simp only [Quad.toList, cornersList]
      exact List.Perm.refl _
    · rw [ho]
      refine ⟨?_, ?_, ?_, ?_⟩
      · exact Or.inr (Or.inr (Or.inr ⟨by unfold corner; dsimp only; ring, by unfold corner; dsimp only; ring⟩))
      · exact Or.inr (Or.inl ⟨by unfold corner; dsimp only; ring, by unfold corner; dsimp only; ring⟩)
      · exact Or.inr (Or.inr (Or.inl ⟨by unfold corner; dsimp only; ring, by unfold corner; dsimp only; ring⟩))
      · exact Or.inl ⟨by unfold corner; dsimp only; ring, by unfold corner; dsimp only; ring⟩
  · have e0 : minBy4 psum q = corner c u v 1 1 :=
      minBy4_corner psum c u v q (psum u) (psum v) hfs 1 1
        (Or.inl rfl) (Or.inl rfl) (by linarith) (by linarith) hperm
    have e1 : minBy4 pdiff q = corner c u v (-1) 1 :=
      minBy4_corner pdiff c u v q (pdiff u) (pdiff v) hfd (-1) 1
        (Or.inr rfl) (Or.inl rfl) (by linarith) (by linarith) hperm
    have e2 : maxBy4 psum q = corner c u v (-1) (-1) :=
      maxBy4_corner psum c u v q (psum u) (psum v) hfs (-1) (-1)
        (Or.inr rfl) (Or.inr rfl) (by linarith) (by linarith) hperm
    have e3 : maxBy4 pdiff q = corner c u v 1 (-1) :=
      maxBy4_corner pdiff c u v q (pdiff u) (pdiff v) hfd 1 (-1)
        (Or.inl rfl) (Or.inr rfl) (by linarith) (by linarith) hperm
    have ho : order_points q =
        ⟨corner c u v 1 1, corner c u v (-1) 1, corner c u v (-1) (-1), corner c u v 1 (-1)⟩ := by
      unfold order_points; rw [e0, e1, e2, e3]
    refine ⟨?_, ?_⟩
    · rw [ho]
      simp only [Quad.toList, cornersList]
      exact perm4_adcb _ _ _ _
    · rw [ho]
      refine ⟨?_, ?_, ?_, ?_⟩
      · exact Or.inr (Or.inl ⟨by unfold corner; dsimp only; ring, by unfold corner; dsimp only; ring⟩)
      · exact Or.inr (Or.inr (Or.inr ⟨by unfold corner; dsimp only; ring, by unfold corner; dsimp only; ring⟩))
      · exact Or.inl ⟨by unfold corner; dsimp only; ring, by unfold corner; dsimp only; ring⟩
      · exact Or.inr (Or.inr (Or.inl ⟨by unfold corner; dsimp only; ring, by unfold corner; dsimp only; ring⟩))
  · exact absurd hE0 (not_le.mpr (mul_pos_of_neg_of_neg (mul_neg_of_neg_of_pos hs1' hd1') (mul_neg_of_neg_of_pos hs2' hd2')))
  · have e0 : minBy4 psum q = corner c u v 1 (-1) :=
      minBy4_corner psum c u v q (psum u) (psum v) hfs 1 (-1)
        (Or.inl rfl) (Or.inr rfl) (by linarith) (by linarith) hperm
    have e1 : minBy4 pdiff q = corner c u v 1 1 :=
      minBy4_corner pdiff c u v q (pdiff u) (pdiff v) hfd 1 1
        (Or.inl rfl) (Or.inl rfl) (by linarith) (by linarith) hperm
    have e2 : maxBy4 psum q = corner c u v (-1) 1 :=
      maxBy4_corner psum c u v q (psum u) (psum v) hfs (-1) 1
        (Or.inr rfl) (Or.inl rfl) (by linarith) (by linarith) hperm
    have e3 : maxBy4 pdiff q = corner c u v (-1) (-1) :=
      maxBy4_corner pdiff c u v q (pdiff u) (pdiff v) hfd (-1) (-1)
        (Or.inr rfl) (Or.inr rfl) (by linarith) (by linarith) hperm
    have ho : order_points q =
        ⟨corner c u v 1 (-1), corner c u v 1 1, corner c u v (-1) 1, corner c u v (-1) (-1)⟩ := by
      unfold order_points; rw [e0, e1, e2, e3]
    refine ⟨?_, ?_⟩
    · rw [ho]
      simp only [Quad.toList, cornersList]
      exact perm4_badc _ _ _ _
    · rw [ho]
      refine ⟨?_, ?_, ?_, ?_⟩
      · exact Or.inr (Or.inr (Or.inl ⟨by unfold corner; dsimp only; ring, by unfold corner; dsimp only; ring⟩))
      · exact Or.inr (Or.inl ⟨by unfold corner; dsimp only; ring, by unfold corner; dsimp only; ring⟩)
      · exact Or.inr (Or.inr (Or.inr ⟨by unfold corner; dsimp only; ring, by unfold corner; dsimp only; ring⟩))
      · exact Or.inl ⟨by unfold corner; dsimp only; ring, by unfold corner; dsimp only; ring⟩
  · exact absurd hE0 (not_le.mpr (mul_pos (mul_pos_of_neg_of_neg hs1' hd1') (mul_pos hs2' hd2')))
  · exact absurd hE0 (not_le.mpr (mul_pos_of_neg_of_neg (mul_neg_of_neg_of_pos hs1' hd1') (mul_neg_of_pos_of_neg hs2' hd2')))
  · have e0 : minBy4 psum q = corner c u v 1 (-1) :=
      minBy4_corner psum c u v q (psum u) (psum v) hfs 1 (-1)
        (Or.inl rfl) (Or.inr rfl) (by linarith) (by linarith) hperm
    have e1 : minBy4 pdiff q = corner c u v (-1) (-1) :=
      minBy4_corner pdiff c u v q (pdiff u) (pdiff v) hfd (-1) (-1)
        (Or.inr rfl) (Or.inr rfl) (by linarith) (by linarith) hperm
    have e2 : maxBy4 psum q = corner c u v (-1) 1 :=
      maxBy4_corner psum c u v q (psum u) (psum v) hfs (-1) 1
        (Or.inr rfl) (Or.inl rfl) (by linarith) (by linarith) hperm
    have e3 : maxBy4 pdiff q = corner c u v 1 1 :=
      maxBy4_corner pdiff c u v q (pdiff u) (pdiff v) hfd 1 1
        (Or.inl rfl) (Or.inl rfl) (by linarith) (by linarith) hperm
    have ho : order_points q =
        ⟨corner c u v 1 (-1), corner c u v (-1) (-1), corner c u v (-1) 1, corner c u v 1 1⟩ := by
      unfold order_points; rw [e0, e1, e2, e3]
    refine ⟨?_, ?_⟩
    · rw [ho]
      simp only [Quad.toList, cornersList]
      exact perm4_rot3 _ _ _ _
    · rw [ho]
      refine ⟨?_, ?_, ?_, ?_⟩
      · exact Or.inr (Or.inl ⟨by unfold corner; dsimp only; ring, by unfold corner; dsimp only; ring⟩)
      · exact Or.inr (Or.inr (Or.inl ⟨by unfold corner; dsimp only; ring, by unfold corner; dsimp only; ring⟩))
      · exact Or.inl ⟨by unfold corner; dsimp only; ring, by unfold corner; dsimp only; ring⟩
      · exact Or.inr (Or.inr (Or.inr ⟨by unfold corner; dsimp only; ring, by unfold corner; dsimp only; ring⟩))
  · have e0 : minBy4 psum q = corner c u v (-1) 1 :=
      minBy4_corner psum c u v q (psum u) (psum v) hfs (-1) 1
        (Or.inr rfl) (Or.inl rfl) (by linarith) (by linarith) hperm
    have e1 : minBy4 pdiff q = corner c u v 1 1 :=
      minBy4_corner pdiff c u v q (pdiff u) (pdiff v) hfd 1 1
        (Or.inl rfl) (Or.inl rfl) (by linarith) (by linarith) hperm
    have e2 : maxBy4 psum q = corner c u v 1 (-1) :=
      maxBy4_corner psum c u v q (psum u) (psum v) hfs 1 (-1)
        (Or.inl rfl) (Or.inr rfl) (by linarith) (by linarith) hperm
    have e3 : maxBy4 pdiff q = corner c u v (-1) (-1) :=
      maxBy4_corner pdiff c u v q (pdiff u) (pdiff v) hfd (-1) (-1)
        (Or.inr rfl) (Or.inr rfl) (by linarith) (by linarith) hperm
    have ho : order_points q =
        ⟨corner c u v (-1) 1, corner c u v 1 1, corner c u v 1 (-1), corner c u v (-1) (-1)⟩ := by
      unfold order_points; rw [e0, e1, e2, e3]
    refine ⟨?_, ?_⟩
    · rw [ho]
      simp only [Quad.toList, cornersList]
      exact perm4_rot1 _ _ _ _
    · rw [ho]
      refine ⟨?_, ?_, ?_, ?_⟩
      · exact Or.inl ⟨by unfold corner; dsimp only; ring, by unfold corner; dsimp only; ring⟩
      · exact Or.inr (Or.inr (Or.inr ⟨by unfold corner; dsimp only; ring, by unfold corner; dsimp only; ring⟩))
      · exact Or.inr (Or.inl ⟨by unfold corner; dsimp only; ring, by unfold corner; dsimp only; ring⟩)
      · exact Or.inr (Or.inr (Or.inl ⟨by unfold corner; dsimp only; ring, by unfold corner; dsimp only; ring⟩))
  · exact absurd hE0 (not_le.mpr (mul_pos_of_neg_of_neg (mul_neg_of_pos_of_neg hs1' hd1') (mul_neg_of_neg_of_pos hs2' hd2')))
  · exact absurd hE0 (not_le.mpr (mul_pos (mul_pos hs1' hd1') (mul_pos_of_neg_of_neg hs2' hd2')))
  · have e0 : minBy4 psum q = corner c u v (-1) 1 :=
      minBy4_corner psum c u v q (psum u) (psum v) hfs (-1) 1
        (Or.inr rfl) (Or.inl rfl) (by linarith) (by linarith) hperm
    have e1 : minBy4 pdiff q = corner c u v (-1) (-1) :=
      minBy4_corner pdiff c u v q (pdiff u) (pdiff v) hfd (-1) (-1)
        (Or.inr rfl) (Or.inr rfl) (by linarith) (by linarith) hperm
    have e2 : maxBy4 psum q = corner c u v 1 (-1) :=
      maxBy4_corner psum c u v q (psum u) (psum v) hfs 1 (-1)
        (Or.inl rfl) (Or.inr rfl) (by linarith) (by linarith) hperm
    have e3 : maxBy4 pdiff q = corner c u v 1 1 :=
      maxBy4_corner pdiff c u v q (pdiff u) (pdiff v) hfd 1 1
        (Or.inl rfl) (Or.inl rfl) (by linarith) (by linarith) hperm
    have ho : order_points q =
        ⟨corner c u v (-1) 1, corner c u v (-1) (-1), corner c u v 1 (-1), corner c u v 1 1⟩ := by
      unfold order_points; rw [e0, e1, e2, e3]
    refine ⟨?_, ?_⟩
    · rw [ho]
      simp only [Quad.toList, cornersList]
      exact perm4_rev _ _ _ _
    · rw [ho]
      refine ⟨?_, ?_, ?_, ?_⟩
      · exact Or.inr (Or.inr (Or.inr ⟨by unfold corner; dsimp only; ring, by unfold corner; dsimp only; ring⟩))
      · exact Or.inl ⟨by unfold corner; dsimp only; ring, by unfold corner; dsimp only; ring⟩
      · exact Or.inr (Or.inr (Or.inl ⟨by unfold corner; dsimp only; ring, by unfold corner; dsimp only; ring⟩))
      · exact Or.inr (Or.inl ⟨by unfold corner; dsimp only; ring, by unfold corner; dsimp only; ring⟩)
  · exact absurd hE0 (not_le.mpr (mul_pos_of_neg_of_neg (mul_neg_of_pos_of_neg hs1' hd1') (mul_neg_of_pos_of_neg hs2' hd2')))
  · have e0 : minBy4 psum q = corner c u v (-1) (-1) :=
      minBy4_corner psum c u v q (psum u) (psum v) hfs (-1) (-1)
        (Or.inr rfl) (Or.inr rfl) (by linarith) (by linarith) hperm
    have e1 : minBy4 pdiff q = corner c u v 1 (-1) :=
      minBy4_corner pdiff c u v q (pdiff u) (pdiff v) hfd 1 (-1)
        (Or.inl rfl) (Or.inr rfl) (by linarith) (by linarith) hperm
    have e2 : maxBy4 psum q = corner c u v 1 1 :=
      maxBy4_corner psum c u v q (psum u) (psum v) hfs 1 1
        (Or.inl rfl) (Or.inl rfl) (by linarith) (by linarith) hperm
    have e3 : maxBy4 pdiff q = corner c u v (-1) 1 :=
      maxBy4_corner pdiff c u v q (pdiff u) (pdiff v) hfd (-1) 1
        (Or.inr rfl) (Or.inl rfl) (by linarith) (by linarith) hperm
    have ho : order_points q =
        ⟨corner c u v (-1) (-1), corner c u v 1 (-1), corner c u v 1 1, corner c u v (-1) 1⟩ := by
      unfold order_points; rw [e0, e1, e2, e3]
    refine ⟨?_, ?_⟩
    · rw [ho]
      simp only [Quad.toList, cornersList]
      exact perm4_cbad _ _ _ _
    · rw [ho]
      refine ⟨?_, ?_, ?_, ?_⟩
      · exact Or.inl ⟨by unfold corner; dsimp only; ring, by unfold corner; dsimp only; ring⟩
      · exact Or.inr (Or.inr (Or.inl ⟨by unfold corner; dsimp only; ring, by unfold corner; dsimp only; ring⟩))
      · exact Or.inr (Or.inl ⟨by unfold corner; dsimp only; ring, by unfold corner; dsimp only; ring⟩)
      · exact Or.inr (Or.inr (Or.inr ⟨by unfold corner; dsimp only; ring, by unfold corner; dsimp only; ring⟩))
  · have e0 : minBy4 psum q = corner c u v (-1) (-1) :=
      minBy4_corner psum c u v q (psum u) (psum v) hfs (-1) (-1)
        (Or.inr rfl) (Or.inr rfl) (by linarith) (by linarith) hperm
    have e1 : minBy4 pdiff q = corner c u v (-1) 1 :=
      minBy4_corner pdiff c u v q (pdiff u) (pdiff v) hfd (-1) 1
        (Or.inr rfl) (Or.inl rfl) (by linarith) (by linarith) hperm
    have e2 : maxBy4 psum q = corner c u v 1 1 :=
      maxBy4_corner psum c u v q (psum u) (psum v) hfs 1 1
        (Or.inl rfl) (Or.inl rfl) (by linarith) (by linarith) hperm
    have e3 : maxBy4 pdiff q = corner c u v 1 (-1) :=
      maxBy4_corner pdiff c u v q (pdiff u) (pdiff v) hfd 1 (-1)
        (Or.inl rfl) (Or.inr rfl) (by linarith) (by linarith) hperm
    have ho : order_points q =
        ⟨corner c u v (-1) (-1), corner c u v (-1) 1, corner c u v 1 1, corner c u v 1 (-1)⟩ := by
      unfold order_points; rw [e0, e1, e2, e3]
    refine ⟨?_, ?_⟩
    · rw [ho]
      simp only [Quad.toList, cornersList]
      exact perm4_rot2 _ _ _ _
    · rw [ho]
      refine ⟨?_, ?_, ?_, ?_⟩
      · exact Or.inr (Or.inr (Or.inl ⟨by unfold corner; dsimp only; ring, by unfold corner; dsimp only; ring⟩))
      · exact Or.inl ⟨by unfold corner; dsimp only; ring, by unfold corner; dsimp only; ring⟩
      · exact Or.inr (Or.inr (Or.inr ⟨by unfold corner; dsimp only; ring, by unfold corner; dsimp only; ring⟩))
      · exact Or.inr (Or.inl ⟨by unfold corner; dsimp only; ring, by unfold corner; dsimp only; ring⟩)
  · exact absurd hE0 (not_le.mpr (mul_pos (mul_pos hs1' hd1') (mul_pos hs2' hd2')))

theorem mem_insDesc {α β : Type} [LinearOrder β] (key : α → β) (c : α)
    (l : List α) (y : α) : y ∈ insDesc key c l ↔ y = c ∨ y ∈ l := by
  induction l with
  | nil => simp [insDesc]
  | cons x xs ih =>
    simp only [insDesc]
    split_ifs
    · simp
    · simp only [List.mem_cons, ih]
      tauto

theorem insDesc_pairwise {α β : Type} [LinearOrder β] (key : α → β) (c : α)
    (l : List α) (hl : l.Pairwise fun a b => key b ≤ key a) :
    (insDesc key c l).Pairwise fun a b => key b ≤ key a := by
  induction l with
  | nil => simp [insDesc]
  | cons x xs ih =>
    rw [List.pairwise_cons] at hl
    obtain ⟨hx, hxs⟩ := hl
    simp only [insDesc]
    split_ifs with h
    · rw [List.pairwise_cons]
      refine ⟨?_, List.pairwise_cons.mpr ⟨hx, hxs⟩⟩
      intro y hy
      rcases List.mem_cons.mp hy with rfl | hy
      · exact h
      · exact le_trans (hx y hy) h
    · rw [List.pairwise_cons]
      refine ⟨?_, ih hxs⟩
      intro y hy
      rcases (mem_insDesc key c xs y).mp hy with rfl | hy
      · exact le_of_lt (not_le.mp h)
      · exact hx y hy

theorem sortDesc_pairwise {α β : Type} [LinearOrder β] (key : α → β)
    (l : List α) :
    (sortDesc key l).Pairwise fun a b => key b ≤ key a := by
  induction l with
  | nil => simp [sortDesc]
  | cons x xs ih => exact insDesc_pairwise key x (sortDesc key xs) ih

theorem sortDesc_pair {α β : Type} [LinearOrder β] (key : α → β) (a b : α) :
    sortDesc key [a, b] = if key b ≤ key a then [a, b] else [b, a] := by
  simp [sortDesc, insDesc]

theorem rects_overlap_comm (a b : RRectM) :
    rects_overlap a b = rects_overlap b a := by
  unfold rects_overlap
  rw [min_comm (rect_bbox a).x2 (rect_bbox b).x2,
      max_comm (rect_bbox a).x1 (rect_bbox b).x1,
      min_comm (rect_bbox a).y2 (rect_bbox b).y2,
      max_comm (rect_bbox a).y1 (rect_bbox b).y1]

theorem filterOverlap_pairwise (l kept : List RectCandidate)
    (h : kept.Pairwise fun a b => rects_overlap a.rect b.rect = false) :
    (filterOverlap l kept).Pairwise
      fun a b => rects_overlap a.rect b.rect = false := by
  induction l generalizing kept with
  | nil => exact h
  | cons c rest ih =>
    simp only [filterOverlap]
    split_ifs with hany
    · exact ih kept h
    · apply ih
      rw [List.pairwise_append]
      refine ⟨h, by simp, ?_⟩
      intro a ha b hb
      rcases List.mem_singleton.mp hb with rfl
      have := List.any_eq_false.mp (Bool.of_not_eq_true hany) a ha
      simpa using this

theorem filterOverlap_two_keep (a b : RectCandidate)
    (h : rects_overlap a.rect b.rect = false) :
    filterOverlap [a, b] [] = [a, b] := by
  simp [filterOverlap, h]

theorem filterOverlap_two_drop (a b : RectCandidate)
    (h : rects_overlap a.rect b.rect = true) :
    filterOverlap [a, b] [] = [a] := by
  simp [filterOverlap, h]

theorem resolve_pair_drop (a b : RectCandidate)
    (hov : rects_overlap a.rect b.rect = true) (hlt : b.area < a.area) :
    resolve [a, b] = [a] ∧ resolve [b, a] = [a] := by
  constructor
  · unfold resolve
    rw [sortDesc_pair]
    simp only [hlt.le, if_true]
    exact filterOverlap_two_drop a b hov
  · unfold resolve
    rw [sortDesc_pair]
    simp only [not_le.mpr hlt, if_false]
    exact filterOverlap_two_drop a b hov

theorem resolve_pair_disjoint (a b : RectCandidate)
    (hov : rects_overlap a.rect b.rect = false) :
    resolve [a, b] = [a, b] ∨ resolve [a, b] = [b, a] := by
  unfold resolve
  rw [sortDesc_pair]
  split_ifs
  · exact Or.inl (filterOverlap_two_keep a b hov)
  · refine Or.inr (filterOverlap_two_keep b a ?_)
    rw [rects_overlap_comm]
    exact hov

/-- C1, counterexample: for the square of side `√2` rotated 45° (corners
`(0,1), (1,0), (0,-1), (-1,0)`, i.e. centre `0`, half-edge vectors
`(1/2, 1/2) ⊥ (1/2, -1/2)`, both sides `√2 > 1`), presented in this input
order, `order_points` returns the point `(0,-1)` twice: the corner sums
`x + y` tie pairwise at 45°, `min_by` keeps the first minimum while
`max_by` keeps the last maximum, and the output is not a permutation of
the corners, so the claimed simple quadrilateral does not exist. -/
theorem order_points_claim_counterexample :
    IsRectInput (0, 0) (1/2, 1/2) (1/2, -1/2)
      ⟨(0, 1), (1, 0), (0, -1), (-1, 0)⟩ ∧
    ¬ OrderedOk (0, 0) (1/2, 1/2) (1/2, -1/2)
      ⟨(0, 1), (1, 0), (0, -1), (-1, 0)⟩ := by
  with_unfolding_all decide

/-- C1, witness for the amended theorem: on the axis-aligned rectangle
with corners `(±1, ±1)` all hypotheses hold and `order_points` produces a
simple quadrilateral. -/
theorem order_points_no_ties_witness :
    IsRectInput (0, 0) (1, 0) (0, 1) ⟨(1, 1), (1, -1), (-1, -1), (-1, 1)⟩ ∧
    OrderedOk (0, 0) (1, 0) (0, 1) ⟨(1, 1), (1, -1), (-1, -1), (-1, 1)⟩ :=
  ⟨by with_unfolding_all decide,
   order_points_no_ties (0, 0) (1, 0) (0, 1)
     ⟨(1, 1), (1, -1), (-1, -1), (-1, 1)⟩
     (by with_unfolding_all decide) (by with_unfolding_all decide)
     (by with_unfolding_all decide) (by with_unfolding_all decide)
     (by with_unfolding_all decide)⟩

/-- C2, counterexample: for the axis-aligned rectangle with corners
`(0,0), (10,0), (10,20), (0,20)`, the output canvas of `warp_photo` is
not `11 × 21`. -/
theorem warp_size_claim_counterexample :
    warp_size ⟨(0, 0), (10, 0), (10, 20), (0, 20)⟩ ≠ (11, 21) := by
  with_unfolding_all decide

/-- C2 (amended): for the axis-aligned rectangle with corners
`(0,0), (10,0), (10,20), (0,20)`, `warp_photo` produces a `20 × 10`
output canvas (width 20, height 10): `order_points` puts the bottom-left
corner in the top-right slot, so the roles of width and height are
swapped, and the rounded maximal edge lengths are exactly `20` and `10`
with no `+1`. -/
theorem warp_size_axis_aligned_10x20 :
    warp_size ⟨(0, 0), (10, 0), (10, 20), (0, 20)⟩ = (20, 10) := by
  with_unfolding_all decide

/-- C3: for every candidate list, no two elements of the overlap
resolver's output have bounding boxes that intersect with strictly
positive area in both axes. -/
theorem resolve_no_overlap (l : List RectCandidate) :
    (resolve l).Pairwise fun a b => rects_overlap a.rect b.rect = false :=
  filterOverlap_pairwise _ [] List.Pairwise.nil

/-- C4: for two candidates with (i) identical nondegenerate bounding
boxes and the second area smaller, only the larger-area one survives in
either input order; (ii) disjoint bounding boxes, both survive; (iii)
overlapping bounding boxes (positive intersection in both axes) and the
second area smaller, only the larger-area one survives in either input
order. -/
theorem resolve_pair_cases (a b : RectCandidate) :
    (rect_bbox a.rect = rect_bbox b.rect → bboxNondeg a.rect →
      b.area < a.area → resolve [a, b] = [a] ∧ resolve [b, a] = [a]) ∧
    (rects_overlap a.rect b.rect = false →
      a ∈ resolve [a, b] ∧ b ∈ resolve [a, b] ∧
        (resolve [a, b]).length = 2) ∧
    (rects_overlap a.rect b.rect = true → b.area < a.area →
      resolve [a, b] = [a] ∧ resolve [b, a] = [a]) := by
  refine ⟨?_, ?_, ?_⟩
  · intro hbb hnd hlt
    apply resolve_pair_drop a b ?_ hlt
    unfold bboxNondeg at hnd
    rw [hbb] at hnd
    unfold rects_overlap
    rw [hbb]
    simp only [min_self, max_self, Bool.and_eq_true, decide_eq_true_eq,
      lt_max_iff]
    exact ⟨Or.inr (by linarith [hnd.1]), Or.inr (by linarith [hnd.2])⟩
  · intro hov
    rcases resolve_pair_disjoint a b hov with h | h <;> rw [h] <;>
      exact ⟨by simp, by simp, rfl⟩
  · exact resolve_pair_drop a b

/-- C4, witness: the three cases at concrete candidate pairs (identical
boxes, disjoint boxes, partially overlapping boxes). -/
theorem resolve_pair_cases_witness :
    (resolve [⟨⟨3, 3, ⟨(0, 0), (4, 0), (4, 4), (0, 4)⟩⟩, 16⟩,
              ⟨⟨3, 3, ⟨(0, 0), (4, 0), (4, 4), (0, 4)⟩⟩, 4⟩] =
       [⟨⟨3, 3, ⟨(0, 0), (4, 0), (4, 4), (0, 4)⟩⟩, 16⟩] ∧
     resolve [⟨⟨3, 3, ⟨(0, 0), (4, 0), (4, 4), (0, 4)⟩⟩, 4⟩,
              ⟨⟨3, 3, ⟨(0, 0), (4, 0), (4, 4), (0, 4)⟩⟩, 16⟩] =
       [⟨⟨3, 3, ⟨(0, 0), (4, 0), (4, 4), (0, 4)⟩⟩, 16⟩]) ∧
    (⟨⟨3, 3, ⟨(0, 0), (4, 0), (4, 4), (0, 4)⟩⟩, 16⟩ ∈
       resolve [⟨⟨3, 3, ⟨(0, 0), (4, 0), (4, 4), (0, 4)⟩⟩, 16⟩,
                ⟨⟨2, 2, ⟨(10, 0), (12, 0), (12, 2), (10, 2)⟩⟩, 4⟩] ∧
     ⟨⟨2, 2, ⟨(10, 0), (12, 0), (12, 2), (10, 2)⟩⟩, 4⟩ ∈
       resolve [⟨⟨3, 3, ⟨(0, 0), (4, 0), (4, 4), (0, 4)⟩⟩, 16⟩,
                ⟨⟨2, 2, ⟨(10, 0), (12, 0), (12, 2), (10, 2)⟩⟩, 4⟩] ∧
     (resolve [⟨⟨3, 3, ⟨(0, 0), (4, 0), (4, 4), (0, 4)⟩⟩, 16⟩,
               ⟨⟨2, 2, ⟨(10, 0), (12, 0), (12, 2), (10, 2)⟩⟩, 4⟩]).length =
       2) ∧
    (resolve [⟨⟨3, 3, ⟨(0, 0), (4, 0), (4, 4), (0, 4)⟩⟩, 16⟩,
              ⟨⟨3, 3, ⟨(2, 2), (6, 2), (6, 6), (2, 6)⟩⟩, 10⟩] =
       [⟨⟨3, 3, ⟨(0, 0), (4, 0), (4, 4), (0, 4)⟩⟩, 16⟩] ∧
     resolve [⟨⟨3, 3, ⟨(2, 2), (6, 2), (6, 6), (2, 6)⟩⟩, 10⟩,
              ⟨⟨3, 3, ⟨(0, 0), (4, 0), (4, 4), (0, 4)⟩⟩, 16⟩] =
       [⟨⟨3, 3, ⟨(0, 0), (4, 0), (4, 4), (0, 4)⟩⟩, 16⟩]) :=
  ⟨(resolve_pair_cases _ _).1 rfl (by with_unfolding_all decide)
     (by with_unfolding_all decide),
   (resolve_pair_cases _ _).2.1 (by with_unfolding_all decide),
   (resolve_pair_cases _ _).2.2 (by with_unfolding_all decide)
     (by with_unfolding_all decide)⟩

/-- C5: supplying `low = 50, high = 0` yields the same effective Canny
threshold pair as `low = 50, high = 150`, hence the same behaviour of
every computation consuming that pair; in general, whenever
`high ≤ low`, the effective pair is `(low, max(3·low, low + 1))`. -/
theorem effective_canny_spec :
    effective_canny 50 0 = effective_canny 50 150 ∧
    (∀ (α : Type) (fcanny : ℚ × ℚ → α),
      fcanny (effective_canny 50 0) = fcanny (effective_canny 50 150)) ∧
    (∀ low high : ℚ, high ≤ low →
      effective_canny low high = (low, max (low * 3) (low + 1))) := by
  have h : effective_canny 50 0 = effective_canny 50 150 := by
    with_unfolding_all decide
  refine ⟨h, fun α fcanny => congrArg fcanny h, fun low high hle => ?_⟩
  unfold effective_canny
  rw [if_pos hle]

/-- C5, witness: the general branch applied at `low = 50, high = 0`. -/
theorem effective_canny_spec_witness :
    effective_canny 50 0 = (50, max (50 * 3) (50 + 1)) :=
  effective_canny_spec.2.2 50 0 (by norm_num)

/-- C6: in the minimum-area filter, a contour whose area equals
`min_area` is retained as a candidate (given a nondegenerate rectangle),
a contour whose area is below `min_area` is rejected, and rejection
happens exactly when `area < min_area`. -/
theorem min_area_filter_boundary (c : ContourM) (m : ℚ)
    (hw : 1 < c.marect.width) (hh : 1 < c.marect.height) :
    (c.area = m → extract_candidates [c] m = [⟨c.marect, c.area⟩]) ∧
    (c.area < m → extract_candidates [c] m = []) ∧
    (extract_candidates [c] m = [] ↔ c.area < m) := by
  have hwh : ¬(c.marect.width ≤ 1 ∨ c.marect.height ≤ 1) := by
    push_neg
    exact ⟨hw, hh⟩
  refine ⟨?_, ?_, ?_, ?_⟩
  · intro he
    simp [extract_candidates, he, hwh]
  · intro hlt
    simp [extract_candidates, hlt]
  · intro hemp
    by_contra hge
    rw [not_lt] at hge
    have hne : extract_candidates [c] m = [⟨c.marect, c.area⟩] := by
      simp [extract_candidates, not_lt.mpr hge, hwh]
    rw [hne] at hemp
    exact absurd hemp (by simp)
  · intro hlt
    simp [extract_candidates, hlt]

/-- C6, witness: with `min_area = 20000`, a contour of area exactly
`20000` is kept and one of area `19999` is rejected. -/
theorem min_area_filter_boundary_witness :
    extract_candidates
        [⟨20000, ⟨3, 4, ⟨(0, 0), (3, 0), (3, 4), (0, 4)⟩⟩⟩] 20000 =
      [⟨⟨3, 4, ⟨(0, 0), (3, 0), (3, 4), (0, 4)⟩⟩, 20000⟩] ∧
    extract_candidates
        [⟨19999, ⟨3, 4, ⟨(0, 0), (3, 0), (3, 4), (0, 4)⟩⟩⟩] 20000 = [] :=
  ⟨(min_area_filter_boundary _ 20000 (by with_unfolding_all decide)
      (by with_unfolding_all decide)).1 rfl,
   (min_area_filter_boundary _ 20000 (by with_unfolding_all decide)
      (by with_unfolding_all decide)).2.1 (by with_unfolding_all decide)⟩

/-- C7: every candidate emitted by the contour-extraction loop has both
rectangle extents strictly greater than 1. -/
theorem extract_candidates_extent (contours : List ContourM) (m : ℚ)
    (cand : RectCandidate) (h : cand ∈ extract_candidates contours m) :
    1 < cand.rect.width ∧ 1 < cand.rect.height := by
  simp only [extract_candidates, List.mem_filterMap] at h
  obtain ⟨c, hc, hx⟩ := h
  split_ifs at hx with h1 h2
  all_goals first
    | exact Option.noConfusion hx
    | (push_neg at h2; cases hx; exact h2)

/-- C7, witness: a concrete surviving contour yields a candidate with
extents `2 > 1` and `3 > 1`. -/
theorem extract_candidates_extent_witness :
    1 < (RectCandidate.mk ⟨2, 3, ⟨(0, 0), (2, 0), (2, 3), (0, 3)⟩⟩
          100).rect.width ∧
    1 < (RectCandidate.mk ⟨2, 3, ⟨(0, 0), (2, 0), (2, 3), (0, 3)⟩⟩
          100).rect.height :=
  extract_candidates_extent
    [⟨100, ⟨2, 3, ⟨(0, 0), (2, 0), (2, 3), (0, 3)⟩⟩⟩] 50 _
    (by with_unfolding_all decide)

/-- C8: the list returned by `detect_photos` is sorted by total pixel
count of the rectified image in descending order; in particular, for two
candidates with disjoint bounding boxes whose warped canvases have
different pixel counts, both survive and the larger-pixel-count one comes
first, in either input order. -/
theorem detect_photos_ordering :
    (∀ (contours : List ContourM) (m : ℚ),
      (detect_photos_model contours m).Pairwise
        fun s t => sizeTotal t ≤ sizeTotal s) ∧
    (∀ a b : RectCandidate, rects_overlap a.rect b.rect = false →
      sizeTotal (warp_size b.rect.pts) < sizeTotal (warp_size a.rect.pts) →
      detect_from_cands [a, b] =
        [warp_size a.rect.pts, warp_size b.rect.pts] ∧
      detect_from_cands [b, a] =
        [warp_size a.rect.pts, warp_size b.rect.pts]) := by
  constructor
  · intro contours m
    unfold detect_photos_model detect_from_cands
    exact sortDesc_pairwise sizeTotal _
  · intro a b hov hlt
    have h2 : rects_overlap b.rect a.rect = false := by
      rw [rects_overlap_comm]
      exact hov
    constructor
    · unfold detect_from_cands
      rcases resolve_pair_disjoint a b hov with h | h <;> rw [h] <;>
        simp only [List.map_cons, List.map_nil] <;> rw [sortDesc_pair]
      · simp only [hlt.le, if_true]
      · simp only [not_le.mpr hlt, if_false]
    · unfold detect_from_cands
      rcases resolve_pair_disjoint b a h2 with h | h <;> rw [h] <;>
        simp only [List.map_cons, List.map_nil] <;> rw [sortDesc_pair]
      · simp only [not_le.mpr hlt, if_false]
      · simp only [hlt.le, if_true]

/-- C8, witness: two disjoint squares of sides 4 and 2; both orders of
the candidate list produce the `4 × 4` crop before the `2 × 2` crop. -/
theorem detect_photos_ordering_witness :
    detect_from_cands
        [⟨⟨3, 3, ⟨(0, 0), (4, 0), (4, 4), (0, 4)⟩⟩, 16⟩,
         ⟨⟨2, 2, ⟨(10, 0), (12, 0), (12, 2), (10, 2)⟩⟩, 4⟩] =
      [warp_size (⟨⟨3, 3, ⟨(0, 0), (4, 0), (4, 4), (0, 4)⟩⟩, 16⟩ :
          RectCandidate).rect.pts,
       warp_size (⟨⟨2, 2, ⟨(10, 0), (12, 0), (12, 2), (10, 2)⟩⟩, 4⟩ :
          RectCandidate).rect.pts] ∧
    detect_from_cands
        [⟨⟨2, 2, ⟨(10, 0), (12, 0), (12, 2), (10, 2)⟩⟩, 4⟩,
         ⟨⟨3, 3, ⟨(0, 0), (4, 0), (4, 4), (0, 4)⟩⟩, 16⟩] =
      [warp_size (⟨⟨3, 3, ⟨(0, 0), (4, 0), (4, 4), (0, 4)⟩⟩, 16⟩ :
          RectCandidate).rect.pts,
       warp_size (⟨⟨2, 2, ⟨(10, 0), (12, 0), (12, 2), (10, 2)⟩⟩, 4⟩ :
          RectCandidate).rect.pts] :=
  detect_photos_ordering.2
    ⟨⟨3, 3, ⟨(0, 0), (4, 0), (4, 4), (0, 4)⟩⟩, 16⟩
    ⟨⟨2, 2, ⟨(10, 0), (12, 0), (12, 2), (10, 2)⟩⟩, 4⟩
    (by with_unfolding_all decide) (by with_unfolding_all decide)

/-- C9: for every input quad (including degenerate ones), both computed
target extents of the warp canvas are at least 1, so `warp_photo` never
requests a zero-sized output. -/
theorem warp_size_min_one (q : Quad) :
    1 ≤ (warp_size q).1 ∧ 1 ≤ (warp_size q).2 :=
  ⟨le_max_right _ 1, le_max_right _ 1⟩

/-- C10: on NaN-free inputs the area-sort comparator
`b.area.partial_cmp(&a.area)` is always defined (the `unwrap` cannot
fail), and the pixel-count comparator is a total `Ordering`-valued
function. -/
theorem sort_comparator_total :
    (∀ l : List FCandidate, (∀ x ∈ l, x.area.isSome = true) →
      ∀ a ∈ l, ∀ b ∈ l, (areaCmpDesc a b).isSome = true) ∧
    (∀ m n : ℕ, pixelCmpDesc m n = Ordering.lt ∨
      pixelCmpDesc m n = Ordering.eq ∨ pixelCmpDesc m n = Ordering.gt) := by
  constructor
  · intro l hl a ha b hb
    obtain ⟨x, hx⟩ := Option.isSome_iff_exists.mp (hl a ha)
    obtain ⟨y, hy⟩ := Option.isSome_iff_exists.mp (hl b hb)
    simp [areaCmpDesc, cmpOpt, hx, hy]
  · intro m n
    unfold pixelCmpDesc
    cases hc : compare n m
    · exact Or.inl rfl
    · exact Or.inr (Or.inl rfl)
    · exact Or.inr (Or.inr rfl)

/-- C10, witness: the comparator is defined on a concrete NaN-free
candidate list. -/
theorem sort_comparator_total_witness :
    (areaCmpDesc ⟨some 1⟩ ⟨some 2⟩).isSome = true :=
  sort_comparator_total.1 [⟨some 1⟩, ⟨some 2⟩]
    (by with_unfolding_all decide) ⟨some 1⟩
    (by with_unfolding_all decide) ⟨some 2⟩
    (by with_unfolding_all decide)
